import Mathlib

/-!
Verification of the summary post-processing and validation pipeline of the
medical-system repository (`app/ai_agent.py` and `app/utils/markdown_utils.py`).

Texts are shallowly embedded as `List Char` (Python `str` is a sequence of
code points, and Python string indices/slices are code-point based, which
matches list indices).  Python functions become Lean functions; the external
LLM call together with the JSON decoding of its response (an out-of-scope
collaborator plus the standard json library) is abstracted as an
`Except (List Char) α` argument: `.error msg` models the call raising an
exception with message `msg`, `.ok v` models a successfully parsed payload.
Python `try/except` blocks become pattern matches on that value.
-/

namespace MedSys

/-- ASCII approximation of the whitespace class used by Python
`str.strip` / `\s` (space, tab, newline, carriage return, vertical tab,
form feed).  Python additionally treats some Unicode spaces as whitespace;
no text handled by the claims contains those. -/
def pySpace (c : Char) : Bool :=
  c = ' ' || c = '\t' || c = '\n' || c = '\r' || c = Char.ofNat 11 || c = Char.ofNat 12

/-- Python `str.rstrip()`. -/
def rstripL (l : List Char) : List Char :=
  (l.reverse.dropWhile pySpace).reverse

/-- Python `str.lstrip()`. -/
def lstripL (l : List Char) : List Char :=
  l.dropWhile pySpace

/-- Python `str.strip()`. -/
def stripL (l : List Char) : List Char :=
  rstripL (lstripL l)

/-- Python `text.split("\n")`; `"".split("\n") == [""]`. -/
def splitLines : List Char → List (List Char)
  | [] => [[]]
  | c :: rest =>
    if c = '\n' then [] :: splitLines rest
    else
      match splitLines rest with
      | l :: ls => (c :: l) :: ls
      | [] => [[c]]

/-- Python `"\n".join(lines)`. -/
def joinLines : List (List Char) → List Char
  | [] => []
  | [l] => l
  | l :: l2 :: ls => l ++ '\n' :: joinLines (l2 :: ls)

/-! ## Markdown Normalizer (`app/utils/markdown_utils.py`) -/

/-- One left-to-right pass replacing CRLF and lone CR by LF.  This is the
composition of the two `replace` calls in `_normalize_line_endings`
(`"\r\n" -> "\n"` first, then `"\r" -> "\n"`). -/
def fixCR : List Char → List Char
  | [] => []
  | '\r' :: '\n' :: rest => '\n' :: fixCR rest
  | '\r' :: rest => '\n' :: fixCR rest
  | c :: rest => c :: fixCR rest

/-- Python `text.count("\\n")`: number of non-overlapping literal
backslash-n two-character sequences. -/
def countLitN : List Char → Nat
  | [] => 0
  | '\\' :: 'n' :: rest => countLitN rest + 1
  | _ :: rest => countLitN rest

/-- Python `text.replace("\\n", "\n")`. -/
def fixLitN : List Char → List Char
  | [] => []
  | '\\' :: 'n' :: rest => '\n' :: fixLitN rest
  | c :: rest => c :: fixLitN rest

/-- Embedding of `_normalize_line_endings` from `markdown_utils.py`. -/
def normalizeLineEndings (text : List Char) : List Char :=
  if text = [] then text
  else
    let t := fixCR text
    if 3 ≤ countLitN t ∧ t.count '\n' ≤ 1 then fixLitN t else t

def mainTitle : List Char := ("看診重點摘要").data

def headingLine : List Char := ("## 看診重點摘要").data

def sectionTitles : List (List Char) :=
  [("看診原因").data, ("診斷結果").data, ("治療計畫").data, ("注意事項").data]

/-- The character class of the regex `[#*\s]+`. -/
def headMarker (c : Char) : Bool := c = '#' || c = '*' || pySpace c

/-- The character class of the regex `[：:]+`. -/
def colonChar (c : Char) : Bool := c = '：' || c = ':'

/-- Embedding of `_is_heading_variant` from `markdown_utils.py`: strip, drop the leading
run of `#`/`*`/whitespace, drop the trailing run of (full-width) colons,
strip again, compare with the expected title. -/
def isHeadingVariant (line expected : List Char) : Bool :=
  let s := stripL line
  let s := s.dropWhile headMarker
  let s := (s.reverse.dropWhile colonChar).reverse
  stripL s == expected

/-- First of the four section titles that `line` (already stripped) is a
variant of — the `for title in SECTION_TITLES` search loop. -/
def findSectionTitle (stripped : List Char) : Option (List Char) :=
  sectionTitles.find? (fun t => isHeadingVariant stripped t)

/-- Embedding of the bold rewrite: two asterisks, the matched section title, two asterisks. -/
def boldOf (t : List Char) : List Char := ("**").data ++ t ++ ("**").data

/-- Embedding of `append_blank_line_once`: append `""` unless the accumulated result
already ends with `""` (the `len == 0` disjunct of the source also
appends, and `getLast? = some []` is false for the empty list). -/
def appendBlankOnce (acc : List (List Char)) : List (List Char) :=
  if acc.getLast? = some ([] : List Char) then acc else acc ++ [[]]

/-- The blank-line insertion before a section title:
`if len(result_lines) > 0 and result_lines[-1] != "": append("")`. -/
def blankBefore (acc : List (List Char)) : List (List Char) :=
  if acc ≠ [] ∧ acc.getLast? ≠ some ([] : List Char) then acc ++ [[]] else acc

/-- The main `while i < len(lines)` loop of `normalize_summary_markdown`,
with an explicit fuel argument as termination device (the section branch
continues on `rest.dropWhile blank`, which is not a structural sub-term).
One loop iteration always consumes at least one line and one unit of fuel,
so any `fuel ≥ lines.length` computes the loop's result. -/
def processLinesF : Nat → List (List Char) → List (List Char) → List (List Char)
  | _, acc, [] => acc
  | 0, acc, _ :: _ => acc
  | fuel + 1, acc, raw :: rest =>
    if stripL raw = [] then processLinesF fuel (appendBlankOnce acc) rest
    else
      match findSectionTitle (stripL raw) with
      | some title =>
        processLinesF fuel (blankBefore acc ++ [boldOf title, []])
          (rest.dropWhile (fun l => (stripL l).isEmpty))
      | none => processLinesF fuel (acc ++ [rstripL raw]) rest

def processLines (acc ls : List (List Char)) : List (List Char) :=
  processLinesF ls.length acc ls

/-- Embedding of `while result_lines and result_lines[-1] == "": pop()`. -/
def trimTrailing (ls : List (List Char)) : List (List Char) :=
  (ls.reverse.dropWhile (fun l => l.isEmpty)).reverse

/-- The final collapse loop, carrying the last appended line. -/
def collapseAux (prev : List Char) : List (List Char) → List (List Char)
  | [] => []
  | l :: rest =>
    if l = [] ∧ prev = [] then collapseAux prev rest
    else l :: collapseAux l rest

/-- Embedding of `collapsed`: drop every blank line that directly follows a blank line. -/
def collapseBlanks : List (List Char) → List (List Char)
  | [] => []
  | l :: rest => l :: collapseAux l rest

/-- Embedding of `normalize_summary_markdown` from `markdown_utils.py`. -/
def normalizeSummaryMarkdown (s : List Char) : List Char :=
  if s = [] then s
  else
    let t := normalizeLineEndings s
    let lines := splitLines t
    let firstIdx := (lines.takeWhile (fun l => (stripL l).isEmpty)).length
    let skipFirst :=
      match lines.get? firstIdx with
      | some fl => isHeadingVariant fl mainTitle
      | none => false
    let rest := lines.drop (firstIdx + (if skipFirst then 1 else 0))
    let out := processLines [headingLine, []] rest
    joinLines (collapseBlanks (trimTrailing out))

/-! ## Canonical-shape invariants of the Normalizer output -/

/-- Invariant of every output line below the fixed heading: no embedded line
or carriage returns, right-trimmed, and (when non-blank) not a section-title
variant. -/
def lineOK (l : List Char) : Prop :=
  '\n' ∉ l ∧ '\r' ∉ l ∧ rstripL l = l ∧ (l ≠ [] → findSectionTitle (stripL l) = none)

/-- Adjacent lines are never both blank. -/
def BB (a b : List Char) : Prop := ¬(a = [] ∧ b = [])

instance (l : List Char) : Decidable (lineOK l) :=
  inferInstanceAs (Decidable (_ ∧ _ ∧ _ ∧ _))

instance (a b : List Char) : Decidable (BB a b) :=
  inferInstanceAs (Decidable (¬(_ ∧ _)))

/-- Shape of the line decomposition of every non-empty Normalizer output:
either just the heading, or the heading, one blank line, and a non-empty
block of invariant-satisfying lines with no trailing blank. -/
def CanonicalLines (L : List (List Char)) : Prop :=
  L = [headingLine] ∨
  ∃ t2, L = headingLine :: [] :: t2 ∧ t2 ≠ [] ∧ t2.getLast? ≠ some ([] : List Char) ∧
    List.Chain' BB ([] :: t2) ∧ ∀ l ∈ t2, lineOK l

/-! ## Numeric Anomaly Scanner (`_detect_anomalous_values` in `app/ai_agent.py`) -/

/-- The `AnomalyDetection` dataclass. -/
structure AnomalyDetection where
  value : List Char
  normal_range : List Char
  severity : List Char
  suggestion : List Char
  position : Nat × Nat
deriving DecidableEq, Repr

/-- Numeric value of a non-empty ASCII digit string, as computed by Python
`int(...)` (leading zeros allowed). -/
def digitsToNat (ds : List Char) : Nat :=
  ds.foldl (fun n c => n * 10 + (c.toNat - 48)) 0

def natDigitsAux : Nat → Nat → List Char
  | 0, _ => []
  | fuel + 1, n => if n = 0 then [] else natDigitsAux fuel (n / 10) ++ [Char.ofNat (48 + n % 10)]

/-- Decimal rendering of a natural number, Python `str(...)` on `int` values. -/
def natToChars (n : Nat) : List Char :=
  if n = 0 then ['0'] else natDigitsAux (n + 1) n

/-- Match `pre` against the start of `s`; on success return the remaining text. -/
def dropPre : List Char → List Char → Option (List Char)
  | [], s => some s
  | _ :: _, [] => none
  | p :: ps, c :: cs => if p = c then dropPre ps cs else none

/-- Try the regex `LABEL[：:]?\s*(\d+)` at the start of `s` (committed
maximal-munch scan, equivalent to the backtracking regex because the
character classes colon / whitespace / digit are disjoint); returns the digit
group and the number of characters matched.  `\d` and `\s` are modelled as
ASCII digits / whitespace, which covers every string the repository scans. -/
def tryLabelNum (label s : List Char) : Option (List Char × Nat) :=
  match dropPre label s with
  | none => none
  | some r1 =>
    let r2 := match r1 with
      | c :: t => if colonChar c then t else r1
      | [] => r1
    let r3 := r2.dropWhile pySpace
    let ds := r3.takeWhile Char.isDigit
    if ds.isEmpty then none
    else some (ds, s.length - (r3.length - ds.length))

/-- Try the blood-pressure regex `血壓[：:]?\s*(\d+)/(\d+)` at the start of `s`. -/
def tryBP (s : List Char) : Option ((List Char × List Char) × Nat) :=
  match dropPre ("血壓").data s with
  | none => none
  | some r1 =>
    let r2 := match r1 with
      | c :: t => if colonChar c then t else r1
      | [] => r1
    let r3 := r2.dropWhile pySpace
    let d1 := r3.takeWhile Char.isDigit
    if d1.isEmpty then none
    else
      match r3.drop d1.length with
      | '/' :: r4 =>
        let d2 := r4.takeWhile Char.isDigit
        if d2.isEmpty then none
        else some ((d1, d2), s.length - (r4.length - d2.length))
      | _ => none

/-- Try the decimal regex `LABEL[：:]?\s*(\d+\.?\d*)` at the start of `s`;
returns the integer digits, the fractional digits (empty when no dot) and the
match length. -/
def tryLabelFloat (label s : List Char) : Option ((List Char × List Char) × Nat) :=
  match dropPre label s with
  | none => none
  | some r1 =>
    let r2 := match r1 with
      | c :: t => if colonChar c then t else r1
      | [] => r1
    let r3 := r2.dropWhile pySpace
    let d1 := r3.takeWhile Char.isDigit
    if d1.isEmpty then none
    else
      match r3.drop d1.length with
      | '.' :: r4 =>
        let d2 := r4.takeWhile Char.isDigit
        some ((d1, d2), s.length - (r4.length - d2.length))
      | _ => some ((d1, []), s.length - (r3.length - d1.length))

/-- Embedding of `re.finditer` over the text: try the pattern at each position from left to
right, and continue after the end of each (non-empty) match.  The fuel is a
termination device; one step always consumes at least one character, so
`fuel = s.length` computes the full scan.  Results carry (payload, start, end)
with character positions, as Python match spans. -/
def scanMatchesF {α : Type} (tryM : List Char → Option (α × Nat)) :
    Nat → Nat → List Char → List (α × Nat × Nat)
  | _, _, [] => []
  | 0, _, _ :: _ => []
  | fuel + 1, pos, c :: rest =>
    match tryM (c :: rest) with
    | some (a, n) =>
      if n = 0 then scanMatchesF tryM fuel (pos + 1) rest
      else (a, pos, pos + n) :: scanMatchesF tryM fuel (pos + n) ((c :: rest).drop n)
    | none => scanMatchesF tryM fuel (pos + 1) rest

def scanMatches {α : Type} (tryM : List Char → Option (α × Nat)) (s : List Char) :
    List (α × Nat × Nat) :=
  scanMatchesF tryM s.length 0 s

/-- Number denoted by integer digits `ip` and fractional digits `fp`, the
value of Python `float(...)` on the matched text.  Exact rational arithmetic
stands in for the binary double; all reference bounds and every value the
claims exercise are exactly representable comparisons either way. -/
def decOf (ip fp : List Char) : ℚ :=
  (digitsToNat ip : ℚ) + (digitsToNat fp : ℚ) / ((10 : ℚ) ^ fp.length)

/-- Python `str(float(...))` of a matched decimal: canonical integer part,
a dot, and the fraction with trailing zeros removed (`.0` when none). -/
def floatStr (ip fp : List Char) : List Char :=
  let fpn := (fp.reverse.dropWhile (fun c => c = '0')).reverse
  natToChars (digitsToNat ip) ++ '.' :: (if fpn.isEmpty then ['0'] else fpn)

/-- The `blood_pressure` arm of `_detect_anomalous_values`: only the systolic
value is range-checked. -/
def bloodPressureAnomalies (summary : List Char) : List AnomalyDetection :=
  (scanMatches tryBP summary).filterMap fun x =>
    let sys := digitsToNat x.1.1
    let dia := digitsToNat x.1.2
    if ¬(90 ≤ sys ∧ sys ≤ 140) then
      some { value := natToChars sys ++ '/' :: natToChars dia
             normal_range := ("90-140/60-90").data
             severity := if 180 < sys ∨ sys < 60 then ("high").data else ("medium").data
             suggestion := ("請確認血壓數值是否正確").data
             position := (x.2.1, x.2.2) }
    else none

/-- The `heart_rate` arm of `_detect_anomalous_values`. -/
def heartRateAnomalies (summary : List Char) : List AnomalyDetection :=
  (scanMatches (tryLabelNum ("心率").data) summary).filterMap fun x =>
    let hr := digitsToNat x.1
    if ¬(60 ≤ hr ∧ hr ≤ 100) then
      some { value := natToChars hr
             normal_range := ("60-100").data
             severity := if 150 < hr ∨ hr < 40 then ("high").data else ("medium").data
             suggestion := ("請確認心率數值是否正確").data
             position := (x.2.1, x.2.2) }
    else none

/-- The `temperature` arm of `_detect_anomalous_values`. -/
def temperatureAnomalies (summary : List Char) : List AnomalyDetection :=
  (scanMatches (tryLabelFloat ("體溫").data) summary).filterMap fun x =>
    let temp := decOf x.1.1 x.1.2
    if ¬((36 : ℚ) ≤ temp ∧ temp ≤ (75 : ℚ) / 2) then
      some { value := floatStr x.1.1 x.1.2
             normal_range := ("36.0-37.5°C").data
             severity := if (40 : ℚ) < temp ∨ temp < (35 : ℚ) then ("high").data
               else ("medium").data
             suggestion := ("請確認體溫數值是否正確").data
             position := (x.2.1, x.2.2) }
    else none

/-- The `blood_sugar` arm of `_detect_anomalous_values`. -/
def bloodSugarAnomalies (summary : List Char) : List AnomalyDetection :=
  (scanMatches (tryLabelFloat ("血糖").data) summary).filterMap fun x =>
    let bs := decOf x.1.1 x.1.2
    if ¬((70 : ℚ) ≤ bs ∧ bs ≤ (140 : ℚ)) then
      some { value := floatStr x.1.1 x.1.2
             normal_range := ("70-140 mg/dL").data
             severity := if (300 : ℚ) < bs ∨ bs < (50 : ℚ) then ("high").data
               else ("medium").data
             suggestion := ("請確認血糖數值是否正確").data
             position := (x.2.1, x.2.2) }
    else none

/-- Embedding of `_detect_anomalous_values`: the four vital patterns are scanned in the
insertion order of the `value_patterns` dict and their findings concatenated. -/
def detectAnomalousValues (summary : List Char) : List AnomalyDetection :=
  bloodPressureAnomalies summary ++ heartRateAnomalies summary ++
    temperatureAnomalies summary ++ bloodSugarAnomalies summary

/-! ## Inline-Replacement Patcher
(`_apply_inline_replacements_preserving_structure` in `app/ai_agent.py`) -/

/-- A modification-proposal dict as consumed by the Patcher and produced by
the Proposer (string fields default to the empty string, offsets to `None`
— the source's `mod.get(...)` defaulting). -/
structure Modification where
  type : List Char
  title : List Char
  description : List Char
  original_text : List Char
  correct_text : List Char
  reason : List Char
  severity : List Char
  category : List Char
  start : Option Nat
  «end» : Option Nat
deriving DecidableEq, Repr

/-- Python `str.splitlines(keepends=True)` for the terminators LF, CRLF and
CR (Python also breaks on a few rarer control characters, which no text in
this pipeline contains). -/
def splitKeepends : List Char → List (List Char)
  | [] => []
  | '\n' :: rest => ['\n'] :: splitKeepends rest
  | '\r' :: '\n' :: rest => ['\r', '\n'] :: splitKeepends rest
  | '\r' :: rest => ['\r'] :: splitKeepends rest
  | c :: rest =>
    match splitKeepends rest with
    | l :: ls => (c :: l) :: ls
    | [] => [[c]]

/-- Bool test that `p` starts the list `s` (Python `str.startswith`). -/
def isPre : List Char → List Char → Bool
  | [], _ => true
  | _ :: _, [] => false
  | p :: ps, c :: cs => p == c && isPre ps cs

/-- A line index is protected when the line, after `lstrip()`, starts with
`'##'`, `'#'` or `'**'` (lines 650-653 of `ai_agent.py`; the Python code
collects the protected indexes in a set and later tests membership, which is
the same as testing the line directly). -/
def isProtectedLine (line : List Char) : Bool :=
  let s := lstripL line
  isPre ("##").data s || isPre ("#").data s || isPre ("**").data s

/-- Embedding of `position_in_protected_line`: walk the keepends lines with cumulative
positions; the first line with `start < next_pos` and `end ≤ next_pos`
decides by its protected flag; when no line matches, `False`. -/
def posInProtected : List (List Char) → Nat → Nat → Nat → Bool
  | [], _, _, _ => false
  | l :: rest, pos, st, en =>
    let nextPos := pos + l.length
    if st < nextPos ∧ en ≤ nextPos then isProtectedLine l
    else posInProtected rest nextPos st en

/-- Python `str.find`: index of the first occurrence of `pat`, `none` when
absent. -/
def findSub : List Char → List Char → Option Nat
  | pat, [] => if pat.isEmpty then some 0 else none
  | pat, c :: rest =>
    if isPre pat (c :: rest) then some 0
    else
      match findSub pat rest with
      | some i => some (i + 1)
      | none => none

/-- Python `.replace('\n', '')`. -/
def removeNL (l : List Char) : List Char := l.filter (fun c => !(c == '\n'))

/-- One iteration of the span-collection loop (lines 668-689): `replace`-type
filter, newline stripping of both texts, the (vacuously false, because the
newlines were just stripped) embedded-newline test, offset resolution from
explicit `start`/`end` or first-occurrence search, and the protected-line
filter.  Returns the span this proposal contributes, if any. -/
def spanOf (fullText : List Char) (lines : List (List Char)) (mod : Modification) :
    Option (Nat × Nat × List Char) :=
  if mod.type ≠ ("replace").data then none
  else
    let orig := removeNL mod.original_text
    let corr := removeNL mod.correct_text
    if orig = [] ∨ '\n' ∈ orig ∨ '\n' ∈ corr then none
    else
      let resolved : Option (Nat × Nat) :=
        match mod.start, mod.«end» with
        | some st, some en => some (st, en)
        | _, _ =>
          match findSub orig fullText with
          | none => none
          | some idx => some (idx, idx + orig.length)
      match resolved with
      | none => none
      | some (st, en) =>
        if posInProtected lines 0 st en then none else some (st, en, corr)

/-- The span-collection loop: each proposal contributes zero or one span, in
order. -/
def collectSpans (fullText : List Char) (lines : List (List Char))
    (mods : List Modification) : List (Nat × Nat × List Char) :=
  mods.filterMap (spanOf fullText lines)

/-- Stable insertion keeping the list sorted by strictly descending start:
an element with an equal start stays before the inserted one, matching
Python's stable `sort(key=..., reverse=True)`. -/
def insertDesc (x : Nat × Nat × List Char) :
    List (Nat × Nat × List Char) → List (Nat × Nat × List Char)
  | [] => [x]
  | y :: ys => if y.1 ≤ x.1 then x :: y :: ys else y :: insertDesc x ys

def sortSpansDesc (spans : List (Nat × Nat × List Char)) : List (Nat × Nat × List Char) :=
  spans.foldr insertDesc []

/-- Embedding of `_apply_inline_replacements_preserving_structure` from `app/ai_agent.py`:
empty-proposal early return, keepends line split, span collection, early
return when no span survives, descending-start stable sort, and right-to-left
application with the defensive no-newline-in-segment skip. -/
def applyInlineReplacements (summary : List Char) (modifications : List Modification) :
    List Char :=
  if modifications = [] then summary
  else
    let lines := splitKeepends summary
    let fullText := lines.flatten
    let spans := collectSpans fullText lines modifications
    if spans = [] then summary
    else
      (sortSpansDesc spans).foldl (fun text span =>
        let seg := (text.drop span.1).take (span.2.1 - span.1)
        if '\n' ∈ seg then text
        else text.take span.1 ++ span.2.2 ++ text.drop span.2.1) fullText

/-- Every occurrence of `pat` in `s` falls within a protected line of `s`,
under the Patcher's own cumulative-length span-to-line mapping. -/
def allOccurrencesProtected (s pat : List Char) : Bool :=
  (List.range (s.length + 1)).all fun j =>
    !(isPre pat (s.drop j)) || posInProtected (splitKeepends s) 0 j (j + pat.length)

/-! ## LLM-backed checkers, Aggregator and Proposer (`app/ai_agent.py`)

The LLM call plus the response decoding (brace slicing, fence stripping,
`json.loads`, field extraction) form the try-body of each checker; they are
external collaborators plus the standard json library, and are abstracted as
an `Except (List Char) payload` argument: `.ok v` is a successfully decoded
payload, `.error e` any exception raised inside the block (network error,
quota error, malformed JSON, missing fields) with message `e`. -/

/-- The `ValidationLevel` enum. -/
inductive ValidationLevel
  | info
  | warning
  | error
  | critical
deriving DecidableEq, Repr

/-- The `ValidationResult` dataclass. -/
structure ValidationResult where
  level : ValidationLevel
  message : List Char
  category : List Char
  position : Option (Nat × Nat)
  suggestion : Option (List Char)
deriving DecidableEq, Repr

/-- The `HighlightInfo` dataclass (floats as exact rationals). -/
structure HighlightInfo where
  text : List Char
  start_pos : Int
  end_pos : Int
  category : List Char
  confidence : ℚ
  importance : List Char
deriving DecidableEq, Repr

/-- One item of the `issues` / `missing_items` JSON arrays (both loops read
the same four fields). -/
structure IssueItem where
  type : List Char
  severity : List Char
  description : List Char
  suggestion : List Char
deriving DecidableEq, Repr

/-- The severity mapping of lines 165-167 and 324-326:
`WARNING if 'low' else ERROR if in ['medium','high'] else CRITICAL`. -/
def levelOfSeverity (sev : List Char) : ValidationLevel :=
  if sev = ("low").data then .warning
  else if sev = ("medium").data ∨ sev = ("high").data then .error
  else .critical

/-- Embedding of `_fact_consistency_check`: on success each issue is mapped to a typed
finding; the except-handler (lines 178-184) returns a single error-level
`validation_error` finding carrying the failure message. -/
def factConsistencyCheck (attempt : Except (List Char) (List IssueItem)) :
    List ValidationResult :=
  match attempt with
  | .ok issues =>
    issues.map fun i =>
      { level := levelOfSeverity i.severity, message := i.description,
        category := i.type, position := none, suggestion := some i.suggestion }
  | .error e =>
    [{ level := .error, message := ("事實一致性校驗失敗: ").data ++ e,
       category := ("validation_error").data, position := none, suggestion := none }]

/-- Embedding of `_extract_and_highlight_key_info`: on success the decoded highlight items
are returned (the per-field copy into the dataclass is the identity here);
the except-handler (lines 257-259) returns the EMPTY list. -/
def extractAndHighlightKeyInfo (attempt : Except (List Char) (List HighlightInfo)) :
    List HighlightInfo :=
  match attempt with
  | .ok highlights => highlights
  | .error _ => []

/-- Embedding of `_detect_missing_information`: on success each item maps to a finding
with the `可能遺漏: ` message head; the except-handler (lines 337-339)
returns the EMPTY list — not a single-element error list. -/
def detectMissingInformation (attempt : Except (List Char) (List IssueItem)) :
    List ValidationResult :=
  match attempt with
  | .ok items =>
    items.map fun i =>
      { level := levelOfSeverity i.severity,
        message := ("可能遺漏: ").data ++ i.description,
        category := i.type, position := none, suggestion := some i.suggestion }
  | .error _ => []

/-- Embedding of `_calculate_overall_score`: weighted deductions in source order, clamped
at zero. -/
def calculateOverallScore (factCheck missingAlerts : List ValidationResult)
    (anomalies : List AnomalyDetection) : Int :=
  let base : Int := 100
  let base := factCheck.foldl (fun b r =>
    if r.level = .critical then b - 20
    else if r.level = .error then b - 10
    else if r.level = .warning then b - 5
    else b) base
  let base := missingAlerts.foldl (fun b r =>
    if r.level = .critical then b - 15
    else if r.level = .error then b - 8
    else if r.level = .warning then b - 3
    else b) base
  let base := anomalies.foldl (fun b a =>
    if a.severity = ("high").data then b - 12
    else if a.severity = ("medium").data then b - 6
    else b) base
  max 0 base

/-- The result dict of `validate_summary`. -/
structure ValidationOutcome where
  fact_consistency : List ValidationResult
  highlights : List HighlightInfo
  missing_alerts : List ValidationResult
  anomalies : List AnomalyDetection
  overall_score : Int
deriving DecidableEq, Repr

/-- Embedding of `validate_summary`: runs the three checkers (their abstracted attempts
given as arguments) and the Scanner, then assembles the report.  Its
enclosing `try/except` (lines 99-101) is unreachable because every
sub-operation handles its own failures — exactly the checker-local isolation
the source implements; the embedding is therefore total. -/
def validateSummary (factAttempt : Except (List Char) (List IssueItem))
    (highlightAttempt : Except (List Char) (List HighlightInfo))
    (missingAttempt : Except (List Char) (List IssueItem))
    (_transcript summary : List Char) : ValidationOutcome :=
  let factCheck := factConsistencyCheck factAttempt
  let highlights := extractAndHighlightKeyInfo highlightAttempt
  let missingAlerts := detectMissingInformation missingAttempt
  let anomalies := detectAnomalousValues summary
  { fact_consistency := factCheck, highlights := highlights,
    missing_alerts := missingAlerts, anomalies := anomalies,
    overall_score := calculateOverallScore factCheck missingAlerts anomalies }

/-- Python `==` between a `ValidationLevel` enum member and a `str`: a plain
`Enum` member never equals a string (only its `.value` would), so this is
constantly `false`.  `_generate_error_detection` line 581 and line 589
perform exactly this comparison, so it is embedded as its own definition. -/
def levelEqPyStr (_l : ValidationLevel) (_s : List Char) : Bool := false

def keyTerms : List (List Char) :=
  [("診斷").data, ("治療").data, ("藥物").data, ("手術").data, ("檢查").data]

/-- Python `needle in hay` on strings: substring containment. -/
def containsSub (needle hay : List Char) : Bool :=
  match findSub needle hay with
  | some _ => true
  | none => false

/-- Python `str.lower()` restricted to ASCII (the scanned keywords are
Chinese characters, which lowering never creates or destroys). -/
def pyLower (l : List Char) : List Char :=
  l.map fun c => if 'A' ≤ c ∧ c ≤ 'Z' then Char.ofNat (c.toNat + 32) else c

/-- Python `text.split('。')`. -/
def splitOnCh (sep : Char) : List Char → List (List Char)
  | [] => [[]]
  | c :: rest =>
    if c = sep then [] :: splitOnCh sep rest
    else
      match splitOnCh sep rest with
      | l :: ls => (c :: l) :: ls
      | [] => [[c]]

/-- Embedding of `_generate_error_detection` (lines 575-629): the consistency branch, the
anomaly branch and the hallucination heuristic, appended in source order.
The consistency branch tests `issue.level in ['error', 'critical']` — an
enum-against-string comparison that is always False in Python (embedded as
`levelEqPyStr`) — so it can never contribute a proposal; line 589's
`issue.level == 'critical'` severity choice is the same dead comparison. -/
def generateErrorDetection (transcript summary : List Char)
    (vr : ValidationOutcome) : List Modification :=
  let consistency := vr.fact_consistency.filterMap fun issue =>
    if levelEqPyStr issue.level (("error").data) ||
        levelEqPyStr issue.level (("critical").data) then
      some
        { type := ("highlight").data, title := ("事實不一致").data,
          description := ("摘要中的內容與逐字稿不符：").data ++ issue.message,
          original_text := ("摘要中的錯誤內容").data,
          correct_text := ("逐字稿中的正確內容").data,
          reason := ("摘要內容與原始逐字稿不一致").data,
          severity := if levelEqPyStr issue.level (("critical").data) then ("high").data
            else ("medium").data,
          category := ("fact_error").data, start := none, «end» := none }
    else none
  let anomalyMods := vr.anomalies.filterMap fun a =>
    if a.severity = ("high").data ∨ a.severity = ("medium").data then
      some
        { type := ("highlight").data, title := ("數值異常").data,
          description := ("數值 ").data ++ a.value ++ (" 可能異常，正常範圍：").data ++
            a.normal_range,
          original_text := a.value,
          correct_text := ("請確認數值是否正確（正常範圍：").data ++ a.normal_range ++
            ("）").data,
          reason := ("數值超出正常範圍，需要確認").data,
          severity := a.severity, category := ("value_error").data,
          start := none, «end» := none }
    else none
  let hallucination := (splitOnCh '。' summary).filterMap fun sentence =>
    if stripL sentence ≠ [] then
      match keyTerms.find? (fun term =>
          containsSub term sentence && !(containsSub term (pyLower transcript))) with
      | some term =>
        some
          { type := ("highlight").data, title := ("可能的幻覺內容").data,
            description := ("摘要中提到「").data ++ term ++ ("」但逐字稿中未提及").data,
            original_text := sentence,
            correct_text := ("請確認此內容是否在逐字稿中出現").data,
            reason := ("摘要中的內容在逐字稿中找不到對應").data,
            severity := ("high").data, category := ("hallucination").data,
            start := none, «end» := none }
      | none => none
    else none
  consistency ++ anomalyMods ++ hallucination

/-- The message of the exception the except-handler of
`_generate_modifications` itself raises. -/
def attributeErrorFallback : List Char :=
  ("AttributeError: MedicalSummaryValidator object has no attribute " ++
    "_generate_fallback_modifications").data

/-- Embedding of `_generate_modifications` (lines 462-573): the try-body (prompt build,
LLM call, brace slicing, fence stripping, `json.loads`, and the per-field
`.get`-defaulting loop of lines 549-562) is abstracted as `attempt`.  On
success: if the decoded list is empty it is extended with
`_generate_error_detection`, and the first 10 proposals are returned.  The
except-handler (lines 570-573) calls `self._generate_fallback_modifications`
— a method defined NOWHERE in the class (the rule-based fallback exists as
`_generate_error_detection` but is not what the handler names) — so the
handler itself raises `AttributeError`, which propagates to the caller. -/
def generateModifications (attempt : Except (List Char) (List Modification))
    (transcript summary : List Char) (vr : ValidationOutcome) :
    Except (List Char) (List Modification) :=
  match attempt with
  | .ok mods =>
    let modifications := mods
    let modifications :=
      if modifications.length = 0 then
        modifications ++ generateErrorDetection transcript summary vr
      else modifications
    .ok (modifications.take 10)
  | .error _ => .error attributeErrorFallback

/-- Total deduction contributed by the Scanner's findings alone. -/
def anomalyWeight (a : AnomalyDetection) : Int :=
  if a.severity = ("high").data then 12
  else if a.severity = ("medium").data then 6
  else 0

def anomalyDeductions (anomalies : List AnomalyDetection) : Int :=
  (anomalies.map anomalyWeight).sum

/-! ## Lemmas and claim theorems -/

/-! ## Basic lemmas about the text utilities -/

theorem splitLines_ne_nil (t : List Char) : splitLines t ≠ [] := by
  induction t with
  | nil => simp [splitLines]
  | cons c rest ih =>
    simp only [splitLines]
    split
    · simp
    · split <;> simp_all

theorem noNL_mem_splitLines : ∀ {t l : List Char}, l ∈ splitLines t → '\n' ∉ l := by
  intro t
  induction t with
  | nil => intro l hl; simp [splitLines] at hl; simp [hl]
  | cons c rest ih =>
    intro l hl
    simp only [splitLines] at hl
    by_cases hc : c = '\n'
    · rw [if_pos hc] at hl
      rcases List.mem_cons.mp hl with h | h
      · simp [h]
      · exact ih h
    · rw [if_neg hc] at hl
      rcases hrec : splitLines rest with _ | ⟨l0, ls⟩
      · exact absurd hrec (splitLines_ne_nil rest)
      · rw [hrec] at hl
        rcases List.mem_cons.mp hl with h | h
        · subst h
          intro hmem
          rcases List.mem_cons.mp hmem with h | h
          · exact hc h.symm
          · exact ih (hrec ▸ List.mem_cons_self l0 ls) h
        · exact ih (hrec ▸ List.mem_cons_of_mem l0 h)

theorem mem_splitLines_subset : ∀ {t l : List Char} {c : Char},
    l ∈ splitLines t → c ∈ l → c ∈ t := by
  intro t
  induction t with
  | nil => intro l c hl hc; simp [splitLines] at hl; subst hl; simp at hc
  | cons a rest ih =>
    intro l c hl hc
    simp only [splitLines] at hl
    by_cases ha : a = '\n'
    · rw [if_pos ha] at hl
      rcases List.mem_cons.mp hl with h | h
      · subst h; simp at hc
      · exact List.mem_cons_of_mem a (ih h hc)
    · rw [if_neg ha] at hl
      rcases hrec : splitLines rest with _ | ⟨l0, ls⟩
      · exact absurd hrec (splitLines_ne_nil rest)
      · rw [hrec] at hl
        rcases List.mem_cons.mp hl with h | h
        · subst h
          rcases List.mem_cons.mp hc with h | h
          · simp [h]
          · exact List.mem_cons_of_mem a (ih (hrec ▸ List.mem_cons_self l0 ls) h)
        · exact List.mem_cons_of_mem a (ih (hrec ▸ List.mem_cons_of_mem l0 h) hc)

theorem joinLines_splitLines : ∀ t : List Char, joinLines (splitLines t) = t := by
  intro t
  induction t with
  | nil => rfl
  | cons c rest ih =>
    simp only [splitLines]
    by_cases hc : c = '\n'
    · rw [if_pos hc]
      rcases hrec : splitLines rest with _ | ⟨l, ls⟩
      · exact absurd hrec (splitLines_ne_nil rest)
      · rw [hrec] at ih
        simpa [joinLines, hc] using ih
    · rw [if_neg hc]
      rcases hrec : splitLines rest with _ | ⟨l, ls⟩
      · exact absurd hrec (splitLines_ne_nil rest)
      · rw [hrec] at ih
        cases ls with
        | nil => simpa [joinLines] using congrArg (c :: ·) ih
        | cons l2 ls2 =>
          have : c :: joinLines (l :: l2 :: ls2) = c :: rest := congrArg (c :: ·) ih
          simpa [joinLines] using this

theorem splitLines_noNL {l : List Char} (h : '\n' ∉ l) : splitLines l = [l] := by
  induction l with
  | nil => rfl
  | cons c rest ih =>
    have hc : c ≠ '\n' := fun hc => h (by simp [hc])
    have hr : '\n' ∉ rest := fun hr => h (List.mem_cons_of_mem c hr)
    simp only [splitLines, if_neg hc, ih hr]

theorem splitLines_append_nl {l r : List Char} (h : '\n' ∉ l) :
    splitLines (l ++ '\n' :: r) = l :: splitLines r := by
  induction l with
  | nil => simp [splitLines]
  | cons c rest ih =>
    have hc : c ≠ '\n' := fun hc => h (by simp [hc])
    have hr : '\n' ∉ rest := fun hr => h (List.mem_cons_of_mem c hr)
    simp only [List.cons_append, splitLines, if_neg hc, List.append_eq]
    rw [ih hr]

theorem splitLines_joinLines : ∀ {L : List (List Char)}, L ≠ [] →
    (∀ l ∈ L, '\n' ∉ l) → splitLines (joinLines L) = L := by
  intro L
  induction L with
  | nil => intro h; exact absurd rfl h
  | cons l ls ih =>
    intro _ hnl
    cases ls with
    | nil => simpa [joinLines] using splitLines_noNL (hnl l (by simp))
    | cons l2 ls2 =>
      have h1 : '\n' ∉ l := hnl l (by simp)
      have h2 : ∀ x ∈ l2 :: ls2, '\n' ∉ x := fun x hx => hnl x (List.mem_cons_of_mem l hx)
      simp only [joinLines, splitLines_append_nl h1, ih (by simp) h2]

theorem noCR_fixCR : ∀ t : List Char, '\r' ∉ fixCR t := by
  intro t
  induction t using fixCR.induct with
  | case1 => simp [fixCR]
  | case2 rest ih => simpa [fixCR.eq_2] using ih
  | case3 rest hne ih =>
    rw [fixCR.eq_3 rest hne]
    intro hmem
    rcases List.mem_cons.mp hmem with h | h
    · exact absurd h (by decide)
    · exact ih h
  | case4 c rest hne1 hne2 ih =>
    rw [fixCR.eq_4 c rest hne1 hne2]
    intro hmem
    rcases List.mem_cons.mp hmem with h | h
    · exact hne2 h.symm
    · exact ih h

theorem mem_fixLitN : ∀ {t : List Char} {c : Char}, c ∈ fixLitN t → c ∈ t ∨ c = '\n' := by
  intro t
  induction t using fixLitN.induct with
  | case1 => intro c h; simp [fixLitN] at h
  | case2 rest ih =>
    intro c h
    rw [fixLitN.eq_2] at h
    rcases List.mem_cons.mp h with h | h
    · exact Or.inr h
    · rcases ih h with h | h
      · exact Or.inl (List.mem_cons_of_mem _ (List.mem_cons_of_mem _ h))
      · exact Or.inr h
  | case3 a rest hne ih =>
    intro c h
    rw [fixLitN.eq_3 a rest hne] at h
    rcases List.mem_cons.mp h with h | h
    · exact Or.inl (by simp [h])
    · rcases ih h with h | h
      · exact Or.inl (List.mem_cons_of_mem a h)
      · exact Or.inr h

theorem noCR_normalizeLineEndings (s : List Char) : '\r' ∉ normalizeLineEndings s := by
  by_cases h : s = []
  · simp [normalizeLineEndings, h]
  · by_cases hcond : 3 ≤ countLitN (fixCR s) ∧ (fixCR s).count '\n' ≤ 1
    · simp only [normalizeLineEndings, if_neg h, if_pos hcond]
      intro hmem
      rcases mem_fixLitN hmem with h2 | h2
      · exact noCR_fixCR s h2
      · exact absurd h2 (by decide)
    · simp only [normalizeLineEndings, if_neg h, if_neg hcond]
      exact noCR_fixCR s

theorem dropWhile_self {α : Type} (p : α → Bool) (l : List α) :
    (l.dropWhile p).dropWhile p = l.dropWhile p := by
  induction l with
  | nil => rfl
  | cons a as ih =>
    by_cases hp : p a
    · rw [List.dropWhile_cons_of_pos hp]
      exact ih
    · rw [List.dropWhile_cons_of_neg hp, List.dropWhile_cons_of_neg hp]

theorem rstripL_idem (l : List Char) : rstripL (rstripL l) = rstripL l := by
  unfold rstripL
  rw [List.reverse_reverse, dropWhile_self]

theorem rstripL_eq_nil_iff {l : List Char} : rstripL l = [] ↔ ∀ c ∈ l, pySpace c := by
  unfold rstripL
  simp [List.dropWhile_eq_nil_iff]

theorem lstripL_eq_nil_iff {l : List Char} : lstripL l = [] ↔ ∀ c ∈ l, pySpace c := by
  unfold lstripL
  simp [List.dropWhile_eq_nil_iff]

theorem mem_rstripL {l : List Char} {c : Char} (h : c ∈ rstripL l) : c ∈ l := by
  unfold rstripL at h
  exact List.mem_reverse.mp
    (List.Sublist.subset (List.dropWhile_sublist _) (List.mem_reverse.mp h))

theorem rstripL_cons (c : Char) (l : List Char) :
    rstripL (c :: l) =
      if rstripL l = [] then (if pySpace c then [] else [c]) else c :: rstripL l := by
  have hiff : rstripL l = [] ↔ l.reverse.dropWhile pySpace = [] := by
    unfold rstripL
    exact List.reverse_eq_nil_iff
  by_cases h : rstripL l = []
  · rw [if_pos h]
    unfold rstripL
    rw [List.reverse_cons, List.dropWhile_append, if_pos (by simp [hiff.mp h])]
    by_cases hc : pySpace c
    · rw [if_pos hc, List.dropWhile_cons_of_pos hc]
      rfl
    · rw [if_neg hc, List.dropWhile_cons_of_neg hc]
      rfl
  · rw [if_neg h]
    have h2 : l.reverse.dropWhile pySpace ≠ [] := fun hh => h (hiff.mpr hh)
    unfold rstripL
    rw [List.reverse_cons, List.dropWhile_append, if_neg (by simp [h2])]
    rw [List.reverse_append]
    rfl

theorem lstripL_cons (c : Char) (l : List Char) :
    lstripL (c :: l) = if pySpace c then lstripL l else c :: l := by
  unfold lstripL
  by_cases hc : pySpace c
  · simp [List.dropWhile_cons_of_pos hc, hc]
  · simp [List.dropWhile_cons_of_neg hc, hc]

theorem lstripL_rstripL_comm (l : List Char) : lstripL (rstripL l) = rstripL (lstripL l) := by
  induction l with
  | nil => rfl
  | cons c rest ih =>
    by_cases hc : pySpace c <;> by_cases h : rstripL rest = []
    · simp only [rstripL_cons, lstripL_cons, if_pos h, if_pos hc, ← ih, h]
      simp
    · simp only [rstripL_cons, lstripL_cons, if_neg h, if_pos hc]
      exact ih
    · simp only [rstripL_cons, lstripL_cons, if_pos h, if_neg hc]
    · simp only [rstripL_cons, lstripL_cons, if_neg h, if_neg hc]

theorem stripL_rstripL (l : List Char) : stripL (rstripL l) = stripL l := by
  unfold stripL
  calc rstripL (lstripL (rstripL l)) = rstripL (rstripL (lstripL l)) := by
        rw [lstripL_rstripL_comm]
    _ = rstripL (lstripL l) := rstripL_idem _

theorem stripL_eq_nil_iff {l : List Char} : stripL l = [] ↔ ∀ c ∈ l, pySpace c := by
  unfold stripL
  rw [rstripL_eq_nil_iff]
  constructor
  · intro h c hc
    rcases List.mem_append.mp
        (by rw [List.takeWhile_append_dropWhile (p := pySpace)]; exact hc) with h2 | h2
    · exact List.mem_takeWhile_imp h2
    · exact h c h2
  · intro h c hc
    exact h c (List.Sublist.subset (List.dropWhile_sublist _) hc)

theorem stripL_ne_nil_of_fixed {l : List Char} (hfix : rstripL l = l) (hne : l ≠ []) :
    stripL l ≠ [] := by
  intro h
  exact hne (by rw [← hfix]; exact rstripL_eq_nil_iff.mpr (stripL_eq_nil_iff.mp h))

theorem rstripL_ne_nil_of_stripL {l : List Char} (h : stripL l ≠ []) : rstripL l ≠ [] := by
  intro h2
  exact h (stripL_eq_nil_iff.mpr (rstripL_eq_nil_iff.mp h2))

theorem eq_nil_of_stripL_fixed {l : List Char} (h : stripL l = []) (hfix : rstripL l = l) :
    l = [] := by
  rw [← hfix]
  exact rstripL_eq_nil_iff.mpr (stripL_eq_nil_iff.mp h)

theorem ne_nil_of_stripL {l : List Char} (h : stripL l ≠ []) : l ≠ [] := by
  intro h2
  subst h2
  exact h rfl

theorem BB_of_ne_right {a b : List Char} (h : b ≠ []) : BB a b := fun hh => h hh.2

theorem lineOK_nil : lineOK ([] : List Char) :=
  ⟨by simp, by simp, rfl, fun h => absurd rfl h⟩

theorem lineOK_bold : ∀ t ∈ sectionTitles, lineOK (boldOf t) := by
  intro t ht
  fin_cases ht <;> exact by decide

theorem chain_append_single {l : List (List Char)} {x : List Char}
    (hc : List.Chain' BB l) (hx : ∀ a, l.getLast? = some a → BB a x) :
    List.Chain' BB (l ++ [x]) := by
  rw [List.chain'_append]
  refine ⟨hc, List.chain'_singleton x, fun a ha y hy => ?_⟩
  have hy2 : y = x := by have := hy; simp at this; exact this.symm
  have ha2 : l.getLast? = some a := by simpa using ha
  exact hy2 ▸ hx a ha2

theorem mem_joinLines : ∀ {L : List (List Char)} {c : Char}, c ∈ joinLines L →
    (∃ l ∈ L, c ∈ l) ∨ c = '\n' := by
  intro L
  induction L with
  | nil => intro c h; simp [joinLines] at h
  | cons l ls ih =>
    cases ls with
    | nil => intro c h; exact Or.inl ⟨l, by simp, h⟩
    | cons l2 ls2 =>
      intro c h
      rw [joinLines] at h
      rcases List.mem_append.mp h with h | h
      · exact Or.inl ⟨l, by simp, h⟩
      · rcases List.mem_cons.mp h with h | h
        · exact Or.inr h
        · rcases ih h with ⟨x, hx, hcx⟩ | h
          · exact Or.inl ⟨x, List.mem_cons_of_mem l hx, hcx⟩
          · exact Or.inr h

theorem count_nl_joinLines : ∀ {L : List (List Char)}, L ≠ [] → (∀ l ∈ L, '\n' ∉ l) →
    (joinLines L).count '\n' + 1 = L.length := by
  intro L
  induction L with
  | nil => intro h; exact absurd rfl h
  | cons l ls ih =>
    intro _ hnl
    cases ls with
    | nil =>
      simp [joinLines, List.count_eq_zero.mpr (hnl l (by simp))]
    | cons l2 ls2 =>
      have h1 : (joinLines (l2 :: ls2)).count '\n' + 1 = (l2 :: ls2).length :=
        ih (by simp) (fun x hx => hnl x (List.mem_cons_of_mem l hx))
      rw [joinLines, List.count_append, List.count_cons_self,
        List.count_eq_zero.mpr (hnl l (by simp))]
      simp only [List.length_cons] at h1 ⊢
      omega

theorem fixCR_of_noCR : ∀ {t : List Char}, '\r' ∉ t → fixCR t = t := by
  intro t
  induction t using fixCR.induct with
  | case1 => intro _; rfl
  | case2 rest ih => intro h; exact absurd (by simp) h
  | case3 rest hne ih => intro h; exact absurd (by simp) h
  | case4 c rest h1 h2 ih =>
    intro h
    rw [fixCR.eq_4 c rest h1 h2, ih (fun hm => h (List.mem_cons_of_mem c hm))]

/-- Invariant preservation through the main processing loop: starting from
the heading block, the loop only ever appends lines satisfying `lineOK` and
never creates two adjacent blank lines. -/
theorem processGood : ∀ (fuel : Nat) (ls t : List (List Char)),
    (∀ l ∈ ls, '\n' ∉ l ∧ '\r' ∉ l) →
    List.Chain' BB (headingLine :: [] :: t) →
    (∀ l ∈ t, lineOK l) →
    ∃ t2, processLinesF fuel (headingLine :: [] :: t) ls = headingLine :: [] :: t2 ∧
      List.Chain' BB (headingLine :: [] :: t2) ∧ (∀ l ∈ t2, lineOK l) := by
  intro fuel
  induction fuel with
  | zero =>
    intro ls t hclean hchain hok
    cases ls with
    | nil => exact ⟨t, rfl, hchain, hok⟩
    | cons raw rest => exact ⟨t, rfl, hchain, hok⟩
  | succ fuel ih =>
    intro ls t hclean hchain hok
    cases ls with
    | nil => exact ⟨t, rfl, hchain, hok⟩
    | cons raw rest =>
      have hcleanraw := hclean raw (by simp)
      have hcleanrest : ∀ l ∈ rest, '\n' ∉ l ∧ '\r' ∉ l :=
        fun l hl => hclean l (List.mem_cons_of_mem raw hl)
      by_cases hblank : stripL raw = []
      · -- blank input line
        simp only [processLinesF, if_pos hblank]
        by_cases hLast : (headingLine :: [] :: t).getLast? = some ([] : List Char)
        · rw [show appendBlankOnce (headingLine :: [] :: t) = headingLine :: [] :: t from by
            unfold appendBlankOnce; rw [if_pos hLast]]
          exact ih rest t hcleanrest hchain hok
        · rw [show appendBlankOnce (headingLine :: [] :: t) = headingLine :: [] :: (t ++ [[]]) from by
            unfold appendBlankOnce; rw [if_neg hLast]; rfl]
          refine ih rest (t ++ [[]]) hcleanrest ?_ ?_
          · exact chain_append_single hchain (fun a ha hand => hLast (by rw [ha, hand.1]))
          · intro l hl
            rcases List.mem_append.mp hl with h | h
            · exact hok l h
            · rw [List.mem_singleton.mp h]; exact lineOK_nil
      · rcases hsec : findSectionTitle (stripL raw) with _ | title
        · -- ordinary content line
          simp only [processLinesF, if_neg hblank, hsec]
          have hlineok : lineOK (rstripL raw) := by
            refine ⟨fun hm => hcleanraw.1 (mem_rstripL hm),
              fun hm => hcleanraw.2 (mem_rstripL hm), rstripL_idem raw, fun _ => ?_⟩
            rw [stripL_rstripL]
            exact hsec
          have hne : rstripL raw ≠ [] := rstripL_ne_nil_of_stripL hblank
          have := ih rest (t ++ [rstripL raw]) hcleanrest
            (chain_append_single hchain (fun a _ => BB_of_ne_right hne))
            (fun l hl => by
              rcases List.mem_append.mp hl with h | h
              · exact hok l h
              · rw [List.mem_singleton.mp h]; exact hlineok)
          exact this
        · -- section-title line
          simp only [processLinesF, if_neg hblank, hsec]
          have htitle : title ∈ sectionTitles := by
            have := List.mem_of_find?_eq_some hsec
            exact this
          have hboldok : lineOK (boldOf title) := lineOK_bold title htitle
          have hboldne : boldOf title ≠ [] := by unfold boldOf; simp
          have hcleandrop : ∀ l ∈ rest.dropWhile (fun l => (stripL l).isEmpty),
              '\n' ∉ l ∧ '\r' ∉ l :=
            fun l hl => hcleanrest l (List.Sublist.subset (List.dropWhile_sublist _) hl)
          by_cases hLast : (headingLine :: [] :: t).getLast? = some ([] : List Char)
          · rw [show blankBefore (headingLine :: [] :: t) ++ [boldOf title, []] =
                headingLine :: [] :: (t ++ [boldOf title] ++ [[]]) from by
              unfold blankBefore
              rw [if_neg (by intro hand; exact hand.2 hLast)]
              simp]
            refine ih _ _ hcleandrop ?_ ?_
            · exact chain_append_single
                (chain_append_single hchain (fun a _ => BB_of_ne_right hboldne))
                (fun a ha => by
                  rw [List.getLast?_concat] at ha
                  have : a = boldOf title := by injection ha with h2; exact h2.symm
                  exact fun hand => hboldne (this ▸ hand.1))
            · intro l hl
              rcases List.mem_append.mp hl with h | h
              · rcases List.mem_append.mp h with h | h
                · exact hok l h
                · rw [List.mem_singleton.mp h]; exact hboldok
              · rw [List.mem_singleton.mp h]; exact lineOK_nil
          · rw [show blankBefore (headingLine :: [] :: t) ++ [boldOf title, []] =
                headingLine :: [] :: (t ++ [[]] ++ [boldOf title] ++ [[]]) from by
              unfold blankBefore
              rw [if_pos ⟨by simp, hLast⟩]
              simp]
            refine ih _ _ hcleandrop ?_ ?_
            · refine chain_append_single (chain_append_single (chain_append_single hchain
                (fun a ha hand => hLast (by rw [ha, hand.1])))
                (fun a _ => BB_of_ne_right hboldne)) ?_
              intro a ha
              rw [List.getLast?_concat] at ha
              have : a = boldOf title := by injection ha with h2; exact h2.symm
              exact fun hand => hboldne (this ▸ hand.1)
            · intro l hl
              rcases List.mem_append.mp hl with h | h
              · rcases List.mem_append.mp h with h | h
                · rcases List.mem_append.mp h with h | h
                  · exact hok l h
                  · rw [List.mem_singleton.mp h]; exact lineOK_nil
                · rw [List.mem_singleton.mp h]; exact hboldok
              · rw [List.mem_singleton.mp h]; exact lineOK_nil

/-- The processing loop reproduces a line block that already satisfies all
the invariants: every line is passed through unchanged. -/
theorem processRepro : ∀ (fuel : Nat) (t2 acc : List (List Char)) (prev : List Char),
    t2.length ≤ fuel → acc.getLast? = some prev → List.Chain' BB (prev :: t2) →
    (∀ l ∈ t2, lineOK l) → processLinesF fuel acc t2 = acc ++ t2 := by
  intro fuel
  induction fuel with
  | zero =>
    intro t2 acc prev hlen _ _ _
    have ht2 : t2 = [] := List.length_eq_zero.mp (Nat.le_zero.mp hlen)
    subst ht2
    simp [processLinesF]
  | succ fuel ih =>
    intro t2 acc prev hlen hlast hchain hok
    cases t2 with
    | nil => simp [processLinesF]
    | cons raw rest =>
      have hokraw := hok raw (by simp)
      have hlen2 : rest.length ≤ fuel := by simpa using Nat.succ_le_succ_iff.mp (by simpa using hlen)
      by_cases hblank : stripL raw = []
      · have hraw : raw = [] := eq_nil_of_stripL_fixed hblank hokraw.2.2.1
        subst hraw
        have hprev : prev ≠ [] := fun hp => (hchain.rel_head) ⟨hp, rfl⟩
        simp only [processLinesF, if_pos hblank]
        rw [show appendBlankOnce acc = acc ++ [[]] from by
          unfold appendBlankOnce
          rw [if_neg (by rw [hlast]; simp [hprev])]]
        rw [ih rest (acc ++ [[]]) [] hlen2 (List.getLast?_concat acc) hchain.tail
          (fun l hl => hok l (List.mem_cons_of_mem _ hl))]
        simp
      · have hrawne : raw ≠ [] := ne_nil_of_stripL hblank
        have hsec : findSectionTitle (stripL raw) = none := hokraw.2.2.2 hrawne
        simp only [processLinesF, if_neg hblank, hsec]
        rw [hokraw.2.2.1]
        rw [ih rest (acc ++ [raw]) raw hlen2 (List.getLast?_concat acc) hchain.tail
          (fun l hl => hok l (List.mem_cons_of_mem _ hl))]
        simp

theorem dropWhile_head_not {α : Type} (p : α → Bool) :
    ∀ (l : List α) {a : α} {as : List α}, l.dropWhile p = a :: as → p a = false := by
  intro l
  induction l with
  | nil => intro a as h; simp at h
  | cons x xs ih =>
    intro a as h
    by_cases hp : p x
    · rw [List.dropWhile_cons_of_pos hp] at h
      exact ih h
    · rw [List.dropWhile_cons_of_neg hp] at h
      injection h with h1
      subst h1
      simpa using hp

theorem collapseAux_of_chain : ∀ (rest : List (List Char)) (prev : List Char),
    List.Chain' BB (prev :: rest) → collapseAux prev rest = rest := by
  intro rest
  induction rest with
  | nil => intro prev _; rfl
  | cons l rest2 ih =>
    intro prev hchain
    unfold collapseAux
    rw [if_neg (fun hand => hchain.rel_head ⟨hand.2, hand.1⟩)]
    rw [ih l hchain.tail]

theorem collapseBlanks_of_chain {L : List (List Char)} (h : List.Chain' BB L) :
    collapseBlanks L = L := by
  cases L with
  | nil => rfl
  | cons l rest =>
    simp only [collapseBlanks]
    rw [collapseAux_of_chain rest l h]

theorem trimTrailing_of_getLast {L : List (List Char)} {x : List Char}
    (h : L.getLast? = some x) (hx : x ≠ []) : trimTrailing L = L := by
  unfold trimTrailing
  have hrev : L.reverse.head? = some x := by rw [List.head?_reverse, h]
  cases hrevL : L.reverse with
  | nil => rw [hrevL] at hrev; simp at hrev
  | cons a as =>
    rw [hrevL] at hrev
    have hax : a = x := by
      simp only [List.head?_cons] at hrev
      injection hrev
    rw [List.dropWhile_cons_of_neg (by simp [hax, hx]), ← hrevL,
      List.reverse_reverse]

theorem mem_trimTrailing {L : List (List Char)} {l : List Char}
    (h : l ∈ trimTrailing L) : l ∈ L := by
  unfold trimTrailing at h
  exact List.mem_reverse.mp
    (List.Sublist.subset (List.dropWhile_sublist _) (List.mem_reverse.mp h))

theorem trimTrailing_ne_nil {L : List (List Char)} {x : List Char} (hx : x ∈ L)
    (hxe : x ≠ []) : trimTrailing L ≠ [] := by
  unfold trimTrailing
  intro h
  rw [List.reverse_eq_nil_iff] at h
  have := List.dropWhile_eq_nil_iff.mp h x (List.mem_reverse.mpr hx)
  simp [hxe] at this

theorem getLast_trimTrailing {L : List (List Char)} (h : trimTrailing L ≠ []) :
    (trimTrailing L).getLast? ≠ some ([] : List Char) := by
  unfold trimTrailing at h ⊢
  rw [List.getLast?_reverse]
  cases hd : L.reverse.dropWhile (fun l => l.isEmpty) with
  | nil => rw [hd] at h; simp at h
  | cons a as =>
    have hpa := dropWhile_head_not _ _ hd
    simp only [List.head?_cons]
    intro hcontra
    have : a = [] := by injection hcontra
    rw [this] at hpa
    simp at hpa

theorem trimTrailing_decomp (t2 : List (List Char)) :
    t2 = trimTrailing t2 ++ (t2.reverse.takeWhile (fun l => l.isEmpty)).reverse := by
  conv_lhs => rw [← List.reverse_reverse t2,
    ← List.takeWhile_append_dropWhile (p := fun l : List Char => l.isEmpty) (l := t2.reverse)]
  rw [List.reverse_append]
  rfl

theorem trimTrailing_cons2 (a b : List Char) (L : List (List Char))
    (h : trimTrailing L ≠ []) : trimTrailing (a :: b :: L) = a :: b :: trimTrailing L := by
  have h2 : L.reverse.dropWhile (fun l => l.isEmpty) ≠ [] := by
    intro hcontra
    exact h (by unfold trimTrailing; rw [hcontra]; rfl)
  unfold trimTrailing
  rw [show (a :: b :: L).reverse = L.reverse ++ [b, a] from by simp]
  rw [List.dropWhile_append, if_neg (by simp [h2])]
  rw [List.reverse_append]
  rfl

theorem chain_of_append_left {l r : List (List Char)} (h : List.Chain' BB (l ++ r)) :
    List.Chain' BB l := (List.chain'_append.mp h).1

/-- Whatever line list the loop is fed, the full pipeline tail (trim, collapse,
join) produces a canonical document. -/
theorem pipeline_canonical (ls : List (List Char))
    (hclean : ∀ l ∈ ls, '\n' ∉ l ∧ '\r' ∉ l) :
    CanonicalLines (splitLines (joinLines (collapseBlanks (trimTrailing
      (processLines [headingLine, []] ls))))) := by
  obtain ⟨t2, hout, hchain, hok⟩ := processGood ls.length ls [] hclean
    (List.chain'_pair.mpr (fun hand => absurd hand.1 (by decide)))
    (by intro l hl; simp at hl)
  rw [show processLines [headingLine, []] ls =
      processLinesF ls.length (headingLine :: [] :: ([] : List (List Char))) ls from rfl]
  rw [hout]
  rcases ht2 : t2 with _ | ⟨h2, t2x⟩
  · rw [show splitLines (joinLines (collapseBlanks (trimTrailing
        (headingLine :: [] :: ([] : List (List Char)))))) = [headingLine] from by decide]
    exact Or.inl rfl
  · rw [← ht2]
    have hchain2 : List.Chain' BB ([] :: t2) := hchain.tail
    have hh2 : h2 ≠ [] := by
      intro hh
      have : BB [] h2 := by
        rw [ht2] at hchain2
        exact hchain2.rel_head
      exact this ⟨rfl, hh⟩
    have ht3ne : trimTrailing t2 ≠ [] :=
      trimTrailing_ne_nil (by rw [ht2]; exact List.mem_cons_self _ _) hh2
    rw [trimTrailing_cons2 _ _ _ ht3ne]
    have hchain3 : List.Chain' BB ([] :: trimTrailing t2) := by
      have hdec := trimTrailing_decomp t2
      apply chain_of_append_left (r := (t2.reverse.takeWhile (fun l => l.isEmpty)).reverse)
      rw [show ([] :: trimTrailing t2) ++ (t2.reverse.takeWhile (fun l => l.isEmpty)).reverse
          = [] :: (trimTrailing t2 ++ (t2.reverse.takeWhile (fun l => l.isEmpty)).reverse) from rfl]
      rw [← hdec]
      exact hchain2
    have hok3 : ∀ l ∈ trimTrailing t2, lineOK l := fun l hl => hok l (mem_trimTrailing hl)
    have hlast3 : (trimTrailing t2).getLast? ≠ some ([] : List Char) :=
      getLast_trimTrailing ht3ne
    have hchainFull : List.Chain' BB (headingLine :: [] :: trimTrailing t2) :=
      List.chain'_cons.mpr ⟨fun hand => absurd hand.1 (by decide), hchain3⟩
    rw [collapseBlanks_of_chain hchainFull]
    rw [splitLines_joinLines (by simp) ?hnl]
    case hnl =>
      intro l hl
      rcases List.mem_cons.mp hl with h | h
      · rw [h]; decide
      · rcases List.mem_cons.mp h with h | h
        · rw [h]; simp
        · exact (hok3 l h).1
    right
    exact ⟨trimTrailing t2, rfl, ht3ne, hlast3, hchain3, hok3⟩

/-- Every non-empty input is normalized to a canonical document. -/
theorem normalize_canonical (s : List Char) (hs : s ≠ []) :
    CanonicalLines (splitLines (normalizeSummaryMarkdown s)) := by
  unfold normalizeSummaryMarkdown
  rw [if_neg hs]
  apply pipeline_canonical
  intro l hl
  have hml : l ∈ splitLines (normalizeLineEndings s) := List.mem_of_mem_drop hl
  exact ⟨noNL_mem_splitLines hml,
    fun hcr => noCR_normalizeLineEndings s (mem_splitLines_subset hml hcr)⟩

/-- Normalizing a canonical document gives it back unchanged. -/
theorem normalize_of_canonical {L : List (List Char)} (h : CanonicalLines L) :
    normalizeSummaryMarkdown (joinLines L) = joinLines L := by
  rcases h with h | ⟨t2, rfl, ht2, hlast, hchain, hok⟩
  · rw [h]; decide
  · obtain ⟨x2, t2x, rfl⟩ : ∃ x2 t2x, t2 = x2 :: t2x := by
      cases t2 with
      | nil => exact absurd rfl ht2
      | cons a b => exact ⟨a, b, rfl⟩
    have hT : joinLines (headingLine :: [] :: x2 :: t2x) =
        headingLine ++ '\n' :: '\n' :: joinLines (x2 :: t2x) := by
      rw [joinLines, joinLines]
      rfl
    have hTne : joinLines (headingLine :: [] :: x2 :: t2x) ≠ [] := by
      rw [hT]
      intro hcontra
      have := List.append_eq_nil.mp hcontra
      exact absurd this.1 (by decide)
    have hnlL : ∀ l ∈ headingLine :: [] :: x2 :: t2x, '\n' ∉ l := by
      intro l hl
      rcases List.mem_cons.mp hl with h | h
      · rw [h]; decide
      · rcases List.mem_cons.mp h with h | h
        · rw [h]; simp
        · exact (hok l h).1
    have hsplit : splitLines (joinLines (headingLine :: [] :: x2 :: t2x)) =
        headingLine :: [] :: x2 :: t2x := splitLines_joinLines (by simp) hnlL
    have hcr : '\r' ∉ joinLines (headingLine :: [] :: x2 :: t2x) := by
      intro hm
      rcases mem_joinLines hm with ⟨l, hl, hcl⟩ | hm2
      · rcases List.mem_cons.mp hl with h | h
        · rw [h] at hcl; exact absurd hcl (by decide)
        · rcases List.mem_cons.mp h with h | h
          · rw [h] at hcl; simp at hcl
          · exact (hok l h).2.1 hcl
      · exact absurd hm2 (by decide)
    have hcount : (joinLines (headingLine :: [] :: x2 :: t2x)).count '\n' + 1 =
        (headingLine :: [] :: x2 :: t2x).length := count_nl_joinLines (by simp) hnlL
    have hNLE : normalizeLineEndings (joinLines (headingLine :: [] :: x2 :: t2x)) =
        joinLines (headingLine :: [] :: x2 :: t2x) := by
      unfold normalizeLineEndings
      rw [if_neg hTne]
      dsimp only
      rw [fixCR_of_noCR hcr]
      rw [if_neg ?hcond]
      case hcond =>
        intro hand
        have h2 := hand.2
        simp only [List.length_cons] at hcount
        omega
    have hPL : processLines [headingLine, []] ([] :: x2 :: t2x) =
        headingLine :: [] :: x2 :: t2x := by
      unfold processLines
      rw [show ([] :: x2 :: t2x : List (List Char)).length = (x2 :: t2x).length + 1 from by simp]
      rw [show processLinesF ((x2 :: t2x).length + 1) [headingLine, []] ([] :: x2 :: t2x) =
          processLinesF (x2 :: t2x).length (appendBlankOnce [headingLine, []]) (x2 :: t2x) from by
        simp [processLinesF, show stripL [] = [] from rfl]]
      rw [show appendBlankOnce [headingLine, []] = [headingLine, []] from by decide]
      rw [processRepro (x2 :: t2x).length (x2 :: t2x) [headingLine, []] []
        le_rfl (by decide) hchain hok]
      rfl
    have hgl : ∃ x, (x2 :: t2x).getLast? = some x ∧ x ≠ [] := by
      cases hx : (x2 :: t2x).getLast? with
      | none => simp at hx
      | some x =>
        refine ⟨x, rfl, fun hxe => hlast ?_⟩
        rw [hx, hxe]
    obtain ⟨x, hx, hxe⟩ := hgl
    have htrim : trimTrailing (headingLine :: [] :: x2 :: t2x) =
        headingLine :: [] :: x2 :: t2x := by
      apply trimTrailing_of_getLast (x := x) _ hxe
      rw [show headingLine :: [] :: x2 :: t2x = [headingLine, []] ++ (x2 :: t2x) from rfl]
      rw [List.getLast?_append_of_ne_nil _ (by simp)]
      exact hx
    have hchainFull : List.Chain' BB (headingLine :: [] :: x2 :: t2x) :=
      List.chain'_cons.mpr ⟨fun hand => absurd hand.1 (by decide), hchain⟩
    unfold normalizeSummaryMarkdown
    rw [if_neg hTne]
    dsimp only
    simp only [hNLE, hsplit]
    rw [List.takeWhile_cons_of_neg (by decide)]
    simp only [List.length_nil, List.get?_cons_zero, Nat.zero_add]
    rw [show (if isHeadingVariant headingLine mainTitle = true then 1 else 0) = 1 from by decide]
    simp only [List.drop_succ_cons, List.drop_zero]
    rw [hPL, htrim, collapseBlanks_of_chain hchainFull]

/-- C8: the Markdown Normalizer is idempotent: `normalize (normalize s) = normalize s`
for every input string, and therefore returns already-canonical summaries unchanged. -/
theorem C8_normalize_idempotent (s : List Char) :
    normalizeSummaryMarkdown (normalizeSummaryMarkdown s) = normalizeSummaryMarkdown s := by
  by_cases h : s = []
  · subst h
    rfl
  · have hc := normalize_canonical s h
    have h2 := normalize_of_canonical hc
    rwa [joinLines_splitLines] at h2

/-- C7 counterexample: the claim says that for EVERY input string the output
contains the fixed heading exactly once.  It fails twice: the empty input is
returned unchanged (zero headings), and an input whose later line literally
equals the heading is passed through, so the heading appears twice. -/
theorem C7_heading_unique_counterexample :
    (splitLines (normalizeSummaryMarkdown [])).count headingLine = 0 ∧
    (splitLines (normalizeSummaryMarkdown ("x\n## 看診重點摘要").data)).count headingLine = 2 := by
  constructor
  · decide
  · decide

/-- C7 (amended): for every NON-EMPTY input string, the first line of the
Normalizer's output is the fixed heading `## 看診重點摘要` (later lines may
repeat it if the input contained such a line). -/
theorem C7_heading_first_line (s : List Char) (h : s ≠ []) :
    (splitLines (normalizeSummaryMarkdown s)).head? = some headingLine := by
  rcases normalize_canonical s h with h1 | ⟨t2, h2, _, _, _, _⟩
  · rw [h1]
    rfl
  · rw [h2]
    rfl

theorem C7_heading_first_line_witness :
    ("喉嚨痛").data ≠ [] ∧
      (splitLines (normalizeSummaryMarkdown ("喉嚨痛").data)).head? = some headingLine :=
  ⟨by decide, C7_heading_first_line ("喉嚨痛").data (by decide)⟩

/-- C9: for the heart-rate vital the normal band 60..100 is inclusive at both
ends and the severity becomes `high` strictly outside 40..150: a heart rate of
exactly 100 (or 60) produces no finding, 101 (and 59, 40) produce a
medium-severity finding, 151 (and 39) produce a high-severity finding, and
the end-to-end scenario `"心率：160"` yields exactly one finding with value
text "160", severity "high" and normal range "60-100". -/
theorem C9_heart_rate_boundaries :
    detectAnomalousValues ("心率：100").data = [] ∧
    detectAnomalousValues ("心率：60").data = [] ∧
    detectAnomalousValues ("心率：101").data =
      [{ value := ("101").data, normal_range := ("60-100").data, severity := ("medium").data,
         suggestion := ("請確認心率數值是否正確").data, position := (0, 6) }] ∧
    detectAnomalousValues ("心率：59").data =
      [{ value := ("59").data, normal_range := ("60-100").data, severity := ("medium").data,
         suggestion := ("請確認心率數值是否正確").data, position := (0, 5) }] ∧
    detectAnomalousValues ("心率：40").data =
      [{ value := ("40").data, normal_range := ("60-100").data, severity := ("medium").data,
         suggestion := ("請確認心率數值是否正確").data, position := (0, 5) }] ∧
    detectAnomalousValues ("心率：151").data =
      [{ value := ("151").data, normal_range := ("60-100").data, severity := ("high").data,
         suggestion := ("請確認心率數值是否正確").data, position := (0, 6) }] ∧
    detectAnomalousValues ("心率：39").data =
      [{ value := ("39").data, normal_range := ("60-100").data, severity := ("high").data,
         suggestion := ("請確認心率數值是否正確").data, position := (0, 5) }] ∧
    detectAnomalousValues ("心率：160").data =
      [{ value := ("160").data, normal_range := ("60-100").data, severity := ("high").data,
         suggestion := ("請確認心率數值是否正確").data, position := (0, 6) }] := by
  exact ⟨by decide, by decide, by decide, by decide, by decide, by decide, by decide, by decide⟩

theorem flatten_splitKeepends : ∀ s : List Char, (splitKeepends s).flatten = s := by
  intro s
  induction s using splitKeepends.induct with
  | case1 => rfl
  | case2 rest ih => simpa [splitKeepends] using ih
  | case3 rest ih =>
    rw [splitKeepends.eq_3]
    simpa using ih
  | case4 rest h1 ih =>
    rw [splitKeepends.eq_4 rest h1]
    simpa using ih
  | case5 c rest h1 h2 h3 l ls hrec ih =>
    rw [splitKeepends.eq_5 c rest h1 h2 h3, hrec]
    rw [hrec] at ih
    simpa using congrArg (c :: ·) ih
  | case6 c rest h1 h2 h3 hrec ih =>
    rw [splitKeepends.eq_5 c rest h1 h2 h3, hrec]
    rw [hrec] at ih
    simp only [List.flatten_nil] at ih
    subst ih
    simp

theorem removeNL_of_noNL {l : List Char} (h : '\n' ∉ l) : removeNL l = l := by
  unfold removeNL
  rw [List.filter_eq_self]
  intro a ha
  simp
  intro hcontra
  exact h (hcontra ▸ ha)

theorem noNL_removeNL (l : List Char) : '\n' ∉ removeNL l := by
  unfold removeNL
  intro h
  have := (List.mem_filter.mp h).2
  simp at this

theorem removeNL_eq_nil {l : List Char} (h : ∀ c ∈ l, c = '\n') : removeNL l = [] := by
  unfold removeNL
  rw [List.filter_eq_nil_iff]
  intro a ha
  simp [h a ha]

theorem findSub_isPre : ∀ {t pat : List Char} {i : Nat},
    findSub pat t = some i → isPre pat (t.drop i) = true := by
  intro t
  induction t with
  | nil =>
    intro pat i h
    unfold findSub at h
    by_cases hp : pat.isEmpty
    · rw [if_pos hp] at h
      injection h with h2
      subst h2
      simp at hp
      simp [hp, isPre]
    · rw [if_neg hp] at h
      exact absurd h (by simp)
  | cons c rest ih =>
    intro pat i h
    unfold findSub at h
    by_cases hp : isPre pat (c :: rest) = true
    · rw [if_pos hp] at h
      injection h with h2
      subst h2
      simpa using hp
    · rw [if_neg hp] at h
      cases hrec : findSub pat rest with
      | none => rw [hrec] at h; exact absurd h (by simp)
      | some j =>
        rw [hrec] at h
        injection h with h2
        subst h2
        simpa using ih hrec

theorem findSub_le : ∀ {t pat : List Char} {i : Nat},
    findSub pat t = some i → i ≤ t.length := by
  intro t
  induction t with
  | nil =>
    intro pat i h
    unfold findSub at h
    by_cases hp : pat.isEmpty
    · rw [if_pos hp] at h
      injection h with h2
      subst h2
      simp
    · rw [if_neg hp] at h
      exact absurd h (by simp)
  | cons c rest ih =>
    intro pat i h
    unfold findSub at h
    by_cases hp : isPre pat (c :: rest) = true
    · rw [if_pos hp] at h
      injection h with h2
      subst h2
      simp
    · rw [if_neg hp] at h
      cases hrec : findSub pat rest with
      | none => rw [hrec] at h; exact absurd h (by simp)
      | some j =>
        rw [hrec] at h
        injection h with h2
        subst h2
        simpa using ih hrec

/-- C4 (code bug): the Patcher strips newline characters from `original_text`
and `correct_text` BEFORE testing for embedded newlines, so a proposal whose
texts contain newlines is not rejected (contradicting the function's own
docstring): the stripped replacement is applied and the output changes. -/
theorem C4_newline_proposal_applied :
    applyInlineReplacements (("## 看診重點摘要\n\nfoobar baz").data)
        [{ type := ("replace").data, title := [], description := [],
           original_text := ("foo\nbar").data, correct_text := ("X\nY").data,
           reason := [], severity := [], category := [], start := none, «end» := none }] =
      ("## 看診重點摘要\n\nXY baz").data ∧
    ("## 看診重點摘要\n\nXY baz").data ≠ ("## 看診重點摘要\n\nfoobar baz").data := by
  exact ⟨by decide, by decide⟩

/-- C10: a replace proposal whose `original_text` is empty or consists only
of newline characters is never applied, even when explicit offsets are
given: the Patcher's output equals its output on the list with that proposal
removed. -/
theorem C10_empty_original_never_applied (s : List Char) (m1 m2 : List Modification)
    (p : Modification) (hty : p.type = ("replace").data)
    (horig : p.original_text = [] ∨ ∀ c ∈ p.original_text, c = '\n') :
    applyInlineReplacements s (m1 ++ p :: m2) = applyInlineReplacements s (m1 ++ m2) := by
  have hnil : removeNL p.original_text = [] := by
    rcases horig with h | h
    · rw [h]
      rfl
    · exact removeNL_eq_nil h
  have hpnone : ∀ ft lines, spanOf ft lines p = none := by
    intro ft lines
    unfold spanOf
    rw [if_neg (by simp [hty])]
    dsimp only
    rw [if_pos (Or.inl hnil)]
  unfold applyInlineReplacements
  by_cases hm : m1 ++ m2 = []
  · obtain ⟨h1, h2⟩ := List.append_eq_nil.mp hm
    subst h1
    subst h2
    rw [if_neg (by simp), if_pos hm]
    dsimp only
    rw [show collectSpans (splitKeepends s).flatten (splitKeepends s) ([] ++ p :: []) = [] from by
      unfold collectSpans
      simp [hpnone]]
    rw [if_pos rfl]
  · rw [if_neg (by simp), if_neg hm]
    dsimp only
    rw [show collectSpans (splitKeepends s).flatten (splitKeepends s) (m1 ++ p :: m2) =
        collectSpans (splitKeepends s).flatten (splitKeepends s) (m1 ++ m2) from by
      unfold collectSpans
      simp [List.filterMap_append, hpnone]]

theorem C10_empty_original_never_applied_witness :
    (⟨("replace").data, [], [], ("\n\n").data, ("YYY").data, [], [], [],
        some 1, some 2⟩ : Modification).type = ("replace").data ∧
    ((⟨("replace").data, [], [], ("\n\n").data, ("YYY").data, [], [], [],
        some 1, some 2⟩ : Modification).original_text = [] ∨
      ∀ c ∈ (⟨("replace").data, [], [], ("\n\n").data, ("YYY").data, [], [], [],
        some 1, some 2⟩ : Modification).original_text, c = '\n') ∧
    applyInlineReplacements (("abc def").data)
        ([] ++ (⟨("replace").data, [], [], ("\n\n").data, ("YYY").data, [], [], [],
          some 1, some 2⟩ : Modification) ::
          [⟨("replace").data, [], [], ("def").data, ("QQQ").data, [], [], [], none, none⟩]) =
      applyInlineReplacements (("abc def").data)
        ([] ++ [⟨("replace").data, [], [], ("def").data, ("QQQ").data, [], [], [], none, none⟩]) :=
  ⟨rfl, Or.inr (by decide),
    C10_empty_original_never_applied (("abc def").data) []
      [⟨("replace").data, [], [], ("def").data, ("QQQ").data, [], [], [], none, none⟩]
      _ rfl (Or.inr (by decide))⟩

/-- C6 counterexample: a canonical summary and a replace proposal (no
explicit offsets) whose `original_text`, the string `"因**\n"`, occurs in the
summary only within the bold section-title line `**看診原因**` (the third
conjunct exhibits the occurrence at offset 29, inside that protected line,
and the second states that every occurrence is inside a protected line) —
yet the Patcher changes the text: it strips the newline from `original_text`
first, and the stripped string `"因**"` first occurs inside an unprotected
content line, where it is replaced.  So the claim as stated is false. -/
theorem C6_protected_counterexample :
    normalizeSummaryMarkdown (("## 看診重點摘要\n\n原因**標註 text\n\n**看診原因**\n\nbody").data) =
      ("## 看診重點摘要\n\n原因**標註 text\n\n**看診原因**\n\nbody").data ∧
    allOccurrencesProtected (("## 看診重點摘要\n\n原因**標註 text\n\n**看診原因**\n\nbody").data)
      (("因**\n").data) = true ∧
    isPre (("因**\n").data)
      ((("## 看診重點摘要\n\n原因**標註 text\n\n**看診原因**\n\nbody").data).drop 29) = true ∧
    applyInlineReplacements
        (("## 看診重點摘要\n\n原因**標註 text\n\n**看診原因**\n\nbody").data)
        [{ type := ("replace").data, title := [], description := [],
           original_text := ("因**\n").data, correct_text := ("X").data,
           reason := [], severity := [], category := [], start := none, «end» := none }] ≠
      ("## 看診重點摘要\n\n原因**標註 text\n\n**看診原因**\n\nbody").data := by
  exact ⟨by decide, by decide, by decide, by decide⟩

/-- C6 (amended): for every summary and every list of replace proposals
without explicit offsets whose `original_text` contains NO newline character
and occurs in the summary only within protected (heading or bold
section-title) lines, the Patcher's output is character-identical to the
input.  (The no-newline condition is forced by the counterexample: the code
strips newlines from `original_text` before searching.) -/
theorem C6_protected_only_unchanged (s : List Char) (mods : List Modification)
    (h : ∀ p ∈ mods, p.type = ("replace").data ∧ p.start = none ∧ p.«end» = none ∧
      '\n' ∉ p.original_text ∧ allOccurrencesProtected s p.original_text = true) :
    applyInlineReplacements s mods = s := by
  unfold applyInlineReplacements
  by_cases hm : mods = []
  · rw [if_pos hm]
  · rw [if_neg hm]
    dsimp only
    have hflat : (splitKeepends s).flatten = s := flatten_splitKeepends s
    rw [show collectSpans (splitKeepends s).flatten (splitKeepends s) mods = [] from ?_]
    · rw [if_pos rfl]
    unfold collectSpans
    rw [List.filterMap_eq_nil_iff]
    intro p hp
    obtain ⟨hty, hst, hen, hnl, hprot⟩ := h p hp
    unfold spanOf
    rw [if_neg (by simp [hty])]
    dsimp only
    have horig : removeNL p.original_text = p.original_text := removeNL_of_noNL hnl
    rw [horig]
    by_cases hoe : p.original_text = []
    · rw [if_pos (Or.inl hoe)]
    · rw [if_neg (by
        push_neg
        exact ⟨hoe, hnl, noNL_removeNL _⟩)]
      rw [hst, hen]
      dsimp only
      cases hfind : findSub p.original_text (splitKeepends s).flatten with
      | none => rfl
      | some idx =>
        have hpre : isPre p.original_text (s.drop idx) = true := by
          have h2 := findSub_isPre hfind
          rwa [hflat] at h2
        have hle : idx ≤ s.length := by
          have h2 := findSub_le hfind
          rwa [hflat] at h2
        have hprot2 : posInProtected (splitKeepends s) 0 idx
            (idx + p.original_text.length) = true := by
          have hall := List.all_eq_true.mp hprot idx
            (List.mem_range.mpr (Nat.lt_succ_of_le hle))
          rw [hpre] at hall
          simpa using hall
        dsimp only
        rw [if_pos hprot2]

theorem C6_protected_only_unchanged_witness :
    (∀ p ∈ [(⟨("replace").data, [], [], ("看診原因").data, ("別的").data,
        [], [], [], none, none⟩ : Modification)],
      p.type = ("replace").data ∧ p.start = none ∧ p.«end» = none ∧
        '\n' ∉ p.original_text ∧
        allOccurrencesProtected (("## 看診重點摘要\n\n**看診原因**\n\n喉嚨痛").data)
          p.original_text = true) ∧
    applyInlineReplacements (("## 看診重點摘要\n\n**看診原因**\n\n喉嚨痛").data)
        [{ type := ("replace").data, title := [], description := [],
           original_text := ("看診原因").data, correct_text := ("別的").data,
           reason := [], severity := [], category := [], start := none, «end» := none }] =
      ("## 看診重點摘要\n\n**看診原因**\n\n喉嚨痛").data :=
  ⟨by decide, C6_protected_only_unchanged _ _ (by decide)⟩

/-- C1 (code bug): whenever the model call (or any other step of the
try-body) raises, `_generate_modifications` does NOT return the rule-based
fallback list the spec describes: its except-handler calls the undefined
method `_generate_fallback_modifications`, so an AttributeError propagates
to the caller instead, for every transcript, summary and report. -/
theorem C1_fallback_raises_attribute_error (e transcript summary : List Char)
    (vr : ValidationOutcome) :
    generateModifications (Except.error e) transcript summary vr =
      Except.error attributeErrorFallback := rfl

/-- C2 counterexample: on a checker failure the missing-info checker returns
the EMPTY list — not the single-element error-finding list the claim
asserts. -/
theorem C2_missing_info_empty_on_failure :
    detectMissingInformation (Except.error (("network error").data)) = [] ∧
    (detectMissingInformation (Except.error (("network error").data))).length ≠ 1 :=
  ⟨rfl, by decide⟩

/-- C2 (amended): for every failure, the consistency checker returns a
single-element list with one error-level `validation_error` finding carrying
the failure message, while the missing-info checker and the highlight
checker each return the empty list; all three are total, so no exception
reaches the caller. -/
theorem C2_checker_failure_shapes (e : List Char) :
    factConsistencyCheck (Except.error e) =
      [{ level := .error, message := ("事實一致性校驗失敗: ").data ++ e,
         category := ("validation_error").data, position := none, suggestion := none }] ∧
    detectMissingInformation (Except.error e) = [] ∧
    extractAndHighlightKeyInfo (Except.error e) = [] :=
  ⟨rfl, rfl, rfl⟩

theorem anomaly_fold_eq : ∀ (as : List AnomalyDetection) (b : Int),
    as.foldl (fun b a =>
      if a.severity = ("high").data then b - 12
      else if a.severity = ("medium").data then b - 6
      else b) b = b - anomalyDeductions as := by
  intro as
  induction as with
  | nil =>
    intro b
    simp [anomalyDeductions]
  | cons a as ih =>
    intro b
    simp only [List.foldl_cons]
    rw [ih]
    unfold anomalyDeductions anomalyWeight
    simp only [List.map_cons, List.sum_cons]
    by_cases h1 : a.severity = ("high").data
    · simp only [if_pos h1]
      omega
    · rw [if_neg h1, if_neg h1]
      by_cases h2 : a.severity = ("medium").data
      · simp only [if_pos h2]
        omega
      · rw [if_neg h2, if_neg h2]
        omega

/-- C3 counterexample: all three LLM calls fail on a summary with no
anomalies, yet the score is 90, not 100 — the consistency checker's failure
finding itself deducts 10, so the checker-derived deductions are NOT zero. -/
theorem C3_score_not_anomaly_only :
    detectAnomalousValues (("abc").data) = [] ∧
    (validateSummary (Except.error (("err").data)) (Except.error (("err").data))
        (Except.error (("err").data)) (("t").data) (("abc").data)).overall_score = 90 :=
  ⟨rfl, by decide⟩

/-- C3 (amended): if the LLM call raises for all three checkers, the
Aggregator still returns a full report — empty missing-info findings and
highlights, anomalies straight from the Scanner — but the score is not
purely anomaly-derived: the consistency checker's single error-level failure
finding deducts 10, giving `max 0 (90 - anomaly deductions)`. -/
theorem C3_all_checkers_fail_report (e1 e2 e3 transcript summary : List Char) :
    (validateSummary (Except.error e1) (Except.error e2) (Except.error e3)
        transcript summary).missing_alerts = [] ∧
    (validateSummary (Except.error e1) (Except.error e2) (Except.error e3)
        transcript summary).highlights = [] ∧
    (validateSummary (Except.error e1) (Except.error e2) (Except.error e3)
        transcript summary).anomalies = detectAnomalousValues summary ∧
    (validateSummary (Except.error e1) (Except.error e2) (Except.error e3)
        transcript summary).overall_score =
      max 0 (90 - anomalyDeductions (detectAnomalousValues summary)) := by
  refine ⟨rfl, rfl, rfl, ?_⟩
  unfold validateSummary calculateOverallScore factConsistencyCheck detectMissingInformation
  dsimp only
  rw [List.foldl_cons, List.foldl_nil, List.foldl_nil]
  dsimp only
  rw [anomaly_fold_eq]
  rw [if_neg (by decide), if_pos rfl]
  norm_num

/-- C5 (code bug): with the model returning an empty proposal list and the
report containing one critical consistency finding (no anomalies, summary
without clinical-action keywords), the rule-based detector emits NO
proposal: `issue.level in ['error', 'critical']` compares the enum member
against strings and is always False in Python, so the consistency branch is
dead code — the claim requires one highlight proposal here.  The second
conjunct shows the anomaly and hallucination branches do work: one high
anomaly and a keyword sentence absent from the transcript yield exactly the
two claimed highlight proposals. -/
theorem C5_fallback_consistency_branch_dead :
    generateModifications (Except.ok []) (("t").data) (("abc").data)
      { fact_consistency :=
          [{ level := .critical, message := ("數值錯誤").data,
             category := ("value_error").data, position := none, suggestion := none }],
        highlights := [], missing_alerts := [], anomalies := [], overall_score := 80 } =
      Except.ok [] ∧
    generateModifications (Except.ok []) (("你好").data) (("診斷為感冒").data)
      { fact_consistency := [], highlights := [], missing_alerts := [],
        anomalies :=
          [{ value := ("160").data, normal_range := ("60-100").data,
             severity := ("high").data, suggestion := ("請確認心率數值是否正確").data,
             position := (0, 6) }],
        overall_score := 80 } =
      Except.ok
        [{ type := ("highlight").data, title := ("數值異常").data,
           description := ("數值 160 可能異常，正常範圍：60-100").data,
           original_text := ("160").data,
           correct_text := ("請確認數值是否正確（正常範圍：60-100）").data,
           reason := ("數值超出正常範圍，需要確認").data,
           severity := ("high").data, category := ("value_error").data,
           start := none, «end» := none },
         { type := ("highlight").data, title := ("可能的幻覺內容").data,
           description := ("摘要中提到「診斷」但逐字稿中未提及").data,
           original_text := ("診斷為感冒").data,
           correct_text := ("請確認此內容是否在逐字稿中出現").data,
           reason := ("摘要中的內容在逐字稿中找不到對應").data,
           severity := ("high").data, category := ("hallucination").data,
           start := none, «end» := none }] :=
  ⟨rfl, rfl⟩

end MedSys

